import Mathlib

/-!
Shallow embedding of the SIEVE cache implementation (`src/Sieve.ts`, re-exported
through `src/index.ts`) of the MR-MKZ/Sieve-Cache repository.

Modelling choices:
* The doubly linked chain of `Node` objects is represented as a `List (Node V)`
  in head-to-tail order: the element at index 0 is `head`, the last element is
  `tail`; a node's `prev` pointer corresponds to the element at the previous
  index (toward the head), and `next` to the following index.
* The `Map<string, Node>` index stores the very node objects that sit in the
  chain, so in the pure model a map lookup is a search of the chain by key.
* The `hand` pointer is represented by the key of the node it references
  (`Option String`); node identity is key identity, which is faithful as long
  as keys in the chain are distinct (an invariant the code maintains).
* `size` is kept as an explicit `Nat` field, updated exactly where the source
  updates `this.size`; `capacity` is an `Int` (a JS number that the constructor
  stores without validation).
* The `while` loop of `_evict` is embedded with explicit fuel; every call site
  passes `countVisited chain + 1`, which is proved sufficient (each iteration
  clears one `visited` flag, so the loop iterates at most `countVisited` times
  before reaching an unvisited node or a null cursor).
-/

set_option autoImplicit false

namespace Sieve

universe u v

/-- A node of the doubly linked list: `key`, `value` and the `visited` flag.
The `prev`/`next` pointers of the source are represented by list adjacency. -/
structure Node (V : Type u) where
  key : String
  value : V
  visited : Bool
  deriving Repr, DecidableEq

/-- The cache state: the chain in head-to-tail order, the hand (key of the
node it points to, or `none`), the `size` counter and the stored `capacity`. -/
structure SieveCache (V : Type u) where
  chain : List (Node V)
  hand : Option String
  size : Nat
  capacity : Int
  deriving Repr, DecidableEq

variable {V : Type u}

/-- `new SieveCache(capacity)`: stores the capacity and starts with an empty
map; `head`, `tail`, `hand` are null and `size` is 0.  The source constructor
performs no validation of `capacity`. -/
def mkCache (capacity : Int) : SieveCache V :=
  { chain := [], hand := none, size := 0, capacity := capacity }

/-- The keys of the chain, head first. -/
def keysOf (c : SieveCache V) : List String :=
  c.chain.map (fun n => n.key)

/-- `this.map.get(key)`: the node stored under `key`, if any. -/
def mapGet (c : SieveCache V) (key : String) : Option (Node V) :=
  c.chain.find? (fun n => n.key == key)

/-- `getNode(key)`: the node if found, otherwise null; no mutation. -/
def getNode (c : SieveCache V) (key : String) : Option (Node V) :=
  mapGet c key

/-- In-place mutation of the node object the map lookup returned: apply `f` to
the first node of the chain whose key is `key`, leaving everything else where
it is. -/
def modifyFirst (key : String) (f : Node V → Node V) : List (Node V) → List (Node V)
  | [] => []
  | n :: rest =>
    if n.key == key then f n :: rest
    else n :: modifyFirst key f rest

/-- `get(key)`: on a miss return undefined; on a hit set `visited = true` and
return the value.  The pair is (returned value, state after the call). -/
def get (c : SieveCache V) (key : String) : Option V × SieveCache V :=
  match mapGet c key with
  | none => (none, c)
  | some n =>
    (some n.value,
      { c with chain := modifyFirst key (fun m => { m with visited := true }) c.chain })

/-- The position (from the head) of the node stored under `key`: the pure
counterpart of the node reference `this.map.get(key)` returns. -/
def findNodeIdx (key : String) : List (Node V) → Option Nat
  | [] => none
  | n :: rest =>
    if n.key == key then some 0
    else (findNodeIdx key rest).map (fun j => j + 1)

/-- `delete(key)`: absent key → false, no effect.  Present key → if the hand
points at this node move it to the node's predecessor, then remove the node
from map and chain and decrement `size`. -/
def delete (c : SieveCache V) (key : String) : Bool × SieveCache V :=
  match findNodeIdx key c.chain with
  | none => (false, c)
  | some j =>
    let hand' :=
      if c.hand = some key then
        if j = 0 then none
        else (c.chain[j - 1]?).map (fun n => n.key)
      else c.hand
    (true, { c with chain := c.chain.eraseIdx j, hand := hand', size := c.size - 1 })

/-- Number of nodes in the chain whose `visited` flag is set. -/
def countVisited (chain : List (Node V)) : Nat :=
  (chain.filter (fun n => n.visited)).length

/-- The `while` loop of `_evict`, with explicit fuel: starting from the cursor
at index `i`, clear `visited` flags while they are true, moving toward the head
(index 0) and wrapping to the tail when the predecessor is null.  Returns the
chain with the cleared flags and the index of the victim (`none` models the
cursor being null, which happens only on an empty chain; the fuel-0 branch is
unreachable from `evictScan`). -/
def evictScanAux : Nat → List (Node V) → Nat → List (Node V) × Option Nat
  | 0, chain, _ => (chain, none)
  | fuel + 1, chain, i =>
    match chain[i]? with
    | none => (chain, none)
    | some nd =>
      if nd.visited then
        let chain' := chain.set i { nd with visited := false }
        evictScanAux fuel chain' (if i = 0 then chain'.length - 1 else i - 1)
      else (chain, some i)

/-- The eviction scan loop, with enough fuel for the loop to run to its natural
exit. -/
def evictScan (chain : List (Node V)) (i : Nat) : List (Node V) × Option Nat :=
  evictScanAux (countVisited chain + 1) chain i

/-- The number of loop iterations the eviction scan performs (ghost
instrumentation of `evictScanAux`: each iteration clears one flag). -/
def evictScanStepsAux : Nat → List (Node V) → Nat → Nat
  | 0, _, _ => 0
  | fuel + 1, chain, i =>
    match chain[i]? with
    | none => 0
    | some nd =>
      if nd.visited then
        let chain' := chain.set i { nd with visited := false }
        1 + evictScanStepsAux fuel chain' (if i = 0 then chain'.length - 1 else i - 1)
      else 0

/-- The number of loop iterations performed by `evictScan chain i`. -/
def evictScanSteps (chain : List (Node V)) (i : Nat) : Nat :=
  evictScanStepsAux (countVisited chain + 1) chain i

/-- The starting index of the eviction scan: the hand's position when the hand
points at a node of the chain, otherwise the tail (`this.hand || this.tail`). -/
def evictStart (c : SieveCache V) : Nat :=
  match c.hand with
  | none => c.chain.length - 1
  | some k =>
    match findNodeIdx k c.chain with
    | some i => i
    | none => c.chain.length - 1

/-- `_evict()`: run the scan; if it produced a victim, set the hand to the
victim's predecessor and remove the victim through `delete`; if the cursor
ended null, fall back to the tail (the source's defensive branch), returning
unchanged when the tail is also null. -/
def _evict (c : SieveCache V) : SieveCache V :=
  let scanned := evictScan c.chain (evictStart c)
  let chain' := scanned.1
  match scanned.2 with
  | some i =>
    match chain'[i]? with
    | some victim =>
      let hand' := if i = 0 then none else (chain'[i - 1]?).map (fun n => n.key)
      (delete { c with chain := chain', hand := hand' } victim.key).2
    | none => { c with chain := chain' }
  | none =>
    match chain'.getLast? with
    | none => { c with chain := chain' }
    | some t =>
      let i := chain'.length - 1
      let hand' := if i = 0 then none else (chain'[i - 1]?).map (fun n => n.key)
      (delete { c with chain := chain', hand := hand' } t.key).2

/-- `set(key, value)`: update path for an existing key (replace value, mark
visited, no movement); insert path for a new key (evict when `size` equals
`capacity`, then splice a fresh unvisited node at the head and increment
`size`).  Returns the created or updated node together with the new state. -/
def set (c : SieveCache V) (key : String) (value : V) : Node V × SieveCache V :=
  match mapGet c key with
  | some existing =>
    ({ existing with value := value, visited := true },
      { c with
          chain := modifyFirst key (fun m => { m with value := value, visited := true }) c.chain })
  | none =>
    let c₁ := if (c.size : Int) = c.capacity then _evict c else c
    let node : Node V := { key := key, value := value, visited := false }
    (node, { c₁ with chain := node :: c₁.chain, size := c₁.size + 1 })

/-- `clear()`: reset head, tail, hand, map and size; capacity is kept. -/
def clear (c : SieveCache V) : SieveCache V :=
  { chain := [], hand := none, size := 0, capacity := c.capacity }

/-- The iterator: walk the chain from head to tail yielding (key, value). -/
def iterFrom : List (Node V) → List (String × V)
  | [] => []
  | n :: rest => (n.key, n.value) :: iterFrom rest

/-- `toArray()`: materialize the iterator's sequence eagerly. -/
def toArray (c : SieveCache V) : List (String × V) :=
  (iterFrom c.chain).map (fun p => (p.1, p.2))

/-- Folding a list of `set` calls over a cache state. -/
def applySets (c : SieveCache V) (ops : List (String × V)) : SieveCache V :=
  ops.foldl (fun c op => (set c op.1 op.2).2) c

/-- `size` agrees with the length of the chain (an invariant of all reachable
states). -/
@[reducible] def SizeInv (c : SieveCache V) : Prop :=
  c.size = c.chain.length

/-- The keys in the chain are pairwise distinct (an invariant of all reachable
states). -/
@[reducible] def KeysNodup (c : SieveCache V) : Prop :=
  (keysOf c).Nodup

/-!
The following definitions transcribe the specification's own description of
the eviction scan (§4.1, steps 1–5), to be compared with `_evict` above, which
is transcribed from the source.  The cursor is `Option Nat` because the spec
speaks of a possibly-null cursor.
-/

/-- Spec step 2, the cursor move: "move the cursor to its predecessor
(`prev`)" — the predecessor of the head is null. -/
def specPrev (i : Nat) : Option Nat :=
  if i = 0 then none else some (i - 1)

/-- Spec position of the tail, null on an empty chain. -/
def specTail (chain : List (Node V)) : Option Nat :=
  if chain.length = 0 then none else some (chain.length - 1)

/-- Spec steps 2–3: "While the cursor is non-null and its `visited` flag is
true: clear the flag to false, then move the cursor to its predecessor.  If
the predecessor is null, wrap the cursor to `tail` and continue scanning."
"Stop when the cursor refers to a node with `visited == false` (the victim)."
Fuel makes the loop a total function; the fuel-0 branch is unreachable from
`evictSpec`. -/
def specScanLoop : Nat → List (Node V) → Option Nat → List (Node V) × Option Nat
  | 0, chain, _ => (chain, none)
  | _, chain, none => (chain, none)
  | fuel + 1, chain, some i =>
    match chain[i]? with
    | none => (chain, none)
    | some nd =>
      if nd.visited then
        let chain' := chain.set i { nd with visited := false }
        let cursor' :=
          match specPrev i with
          | some j => some j
          | none => specTail chain'
        specScanLoop fuel chain' cursor'
      else (chain, some i)

/-- Spec step 1: "Start the scan cursor at `hand` if non-null, else at
`tail`." -/
def specStart (c : SieveCache V) : Option Nat :=
  match c.hand with
  | some k =>
    match findNodeIdx k c.chain with
    | some j => some j
    | none => specTail c.chain
  | none => specTail c.chain

/-- The eviction scan as the specification describes it: step 1 chooses the
starting cursor, steps 2–3 run the scanning loop, step 4 sets `hand` to the
victim's predecessor, step 5 removes the victim "via the same path as
`delete`"; when the scan ends with a null cursor (empty chain) it is a no-op
(step 3's defensive case). -/
def evictSpec (c : SieveCache V) : SieveCache V :=
  let scanned := specScanLoop (countVisited c.chain + 1) c.chain (specStart c)
  match scanned.2 with
  | some j =>
    match scanned.1[j]? with
    | some victim =>
      let hand' := if j = 0 then none else (scanned.1[j - 1]?).map (fun n => n.key)
      (delete { c with chain := scanned.1, hand := hand' } victim.key).2
    | none => { c with chain := scanned.1 }
  | none => { c with chain := scanned.1 }

/-- Node-level relation of an eviction sweep: keys and values are untouched
and the `visited` flag may only be cleared, never raised. -/
def ClearOnly (n m : Node V) : Prop :=
  m.key = n.key ∧ m.value = n.value ∧ (m.visited = true → n.visited = true)

/-- `set c key v` removes exactly one existing entry (at some chain position
`j`) and then inserts the new key at the head, leaving `size` unchanged. -/
def EvictsExactlyOne (c : SieveCache V) (key : String) (v : V) : Prop :=
  ∃ j, j < c.chain.length ∧
    keysOf (set c key v).2 = key :: (keysOf c).eraseIdx j ∧
    (set c key v).2.size = c.size

/-- The visited-flag state machine around `key`: a node created by `set` on an
absent key starts unvisited; a `get` hit and an update `set` raise exactly the
found node's flag, leaving every other node untouched; a `get` miss changes
nothing; `delete` leaves every surviving node (flag included) untouched; an
eviction leaves every surviving node's key and value intact and only ever
clears flags. -/
def VisitedFlagSpec (c : SieveCache V) (key : String) (v : V) : Prop :=
  (mapGet c key = none →
      (set c key v).1.visited = false ∧
      (set c key v).2.chain[0]? = some { key := key, value := v, visited := false }) ∧
  (∀ n, mapGet c key = some n →
      ∃ j, findNodeIdx key c.chain = some j ∧ c.chain[j]? = some n ∧
        (get c key).2.chain = c.chain.set j { n with visited := true } ∧
        (set c key v).2.chain = c.chain.set j { n with value := v, visited := true }) ∧
  (mapGet c key = none → get c key = (none, c)) ∧
  (∀ n ∈ (delete c key).2.chain, n ∈ c.chain) ∧
  (∀ n ∈ (_evict c).chain, ∃ m ∈ c.chain,
      n.key = m.key ∧ n.value = m.value ∧ (n.visited = true → m.visited = true))

/-- The behavior of `delete c key`: a miss reports false and changes nothing;
a hit (node at chain position `j`) reports true, erases exactly that position,
decrements `size`, moves the hand to the predecessor when the hand pointed at
the deleted node, and afterwards the key is no longer in the index. -/
def DeleteSpec (c : SieveCache V) (key : String) : Prop :=
  (mapGet c key = none → delete c key = (false, c)) ∧
  (∀ j, findNodeIdx key c.chain = some j →
      (delete c key).1 = true ∧
      (delete c key).2.chain = c.chain.eraseIdx j ∧
      (delete c key).2.size = c.size - 1 ∧
      (delete c key).2.capacity = c.capacity ∧
      ((delete c key).2.hand =
        if c.hand = some key then
          if j = 0 then none else (c.chain[j - 1]?).map (fun n => n.key)
        else c.hand) ∧
      (KeysNodup c → mapGet (delete c key).2 key = none))

/-- The behavior of `set` on an already-present `key` (stored in node `n`):
the returned node is `n` with the new value and a raised visited flag, the
chain is unchanged except that `n`'s slot holds the updated node (same
position, same order), and size, hand and capacity are untouched — in
particular no eviction happens, full cache or not. -/
def SetUpdateSpec (c : SieveCache V) (key : String) (v : V) (n : Node V) : Prop :=
  ∃ j, findNodeIdx key c.chain = some j ∧ c.chain[j]? = some n ∧ n.key = key ∧
    (set c key v).1 = { n with value := v, visited := true } ∧
    (set c key v).2.chain = c.chain.set j { n with value := v, visited := true } ∧
    (set c key v).2.chain.length = c.chain.length ∧
    keysOf (set c key v).2 = keysOf c ∧
    (set c key v).2.size = c.size ∧
    (set c key v).2.hand = c.hand ∧
    (set c key v).2.capacity = c.capacity

/-! ### Helper lemmas about `findNodeIdx`, `modifyFirst` and `mapGet` -/

theorem findNodeIdx_lt_length {key : String} {chain : List (Node V)} {j : Nat}
    (h : findNodeIdx key chain = some j) : j < chain.length := by
  induction chain generalizing j with
  | nil => simp [findNodeIdx] at h
  | cons hd tl ih =>
    by_cases hk : hd.key == key
    · simp only [findNodeIdx, hk, ite_true, Option.some.injEq] at h
      simp only [List.length_cons]
      omega
    · simp only [findNodeIdx, hk, Bool.false_eq_true, not_false_iff, ite_false] at h
      cases htl : findNodeIdx key tl with
      | none => simp [htl] at h
      | some j' =>
        simp only [htl, Option.map_some', Option.some.injEq] at h
        have := ih htl
        simp only [List.length_cons]
        omega

theorem findNodeIdx_none_iff {key : String} {chain : List (Node V)} :
    findNodeIdx key chain = none ↔ ∀ n ∈ chain, n.key ≠ key := by
  induction chain with
  | nil => simp [findNodeIdx]
  | cons hd tl ih =>
    by_cases hk : hd.key == key
    · simp [findNodeIdx, hk]
      intro h
      exact absurd (eq_of_beq hk) h
    · simp only [findNodeIdx, hk, Bool.false_eq_true, not_false_iff, ite_false,
        Option.map_eq_none', ih, List.mem_cons]
      constructor
      · intro h n hn
        cases hn with
        | inl he => subst he; exact fun hc => hk (beq_iff_eq.mpr hc)
        | inr ht => exact h n ht
      · intro h n hn
        exact h n (Or.inr hn)

theorem mapGet_none_iff {c : SieveCache V} {key : String} :
    mapGet c key = none ↔ key ∉ keysOf c := by
  unfold mapGet keysOf
  rw [List.find?_eq_none]
  constructor
  · intro h hk
    obtain ⟨n, hn, hkey⟩ := List.mem_map.mp hk
    exact h n hn (by simp [hkey])
  · intro h n hn hb
    exact h (List.mem_map.mpr ⟨n, hn, eq_of_beq hb⟩)

theorem mapGet_none_iff_findNodeIdx {c : SieveCache V} {key : String} :
    mapGet c key = none ↔ findNodeIdx key c.chain = none := by
  rw [mapGet_none_iff, findNodeIdx_none_iff]
  unfold keysOf
  constructor
  · intro h n hn he
    exact h (List.mem_map.mpr ⟨n, hn, he⟩)
  · intro h hk
    obtain ⟨n, hn, hkey⟩ := List.mem_map.mp hk
    exact h n hn hkey

theorem find?_key_eq_some_elim {key : String} {n : Node V} {chain : List (Node V)}
    (h : chain.find? (fun m => m.key == key) = some n) :
    n.key = key ∧ ∃ j, findNodeIdx key chain = some j ∧ chain[j]? = some n := by
  induction chain with
  | nil => simp at h
  | cons hd tl ih =>
    by_cases hk : hd.key == key
    · simp only [List.find?_cons, hk, cond_true, Option.some.injEq] at h
      subst h
      exact ⟨eq_of_beq hk, 0, by simp [findNodeIdx, hk], by simp⟩
    · simp only [List.find?_cons, hk, cond_false] at h
      obtain ⟨hkey, j, hfind, hget⟩ := ih h
      refine ⟨hkey, j + 1, ?_, by simpa using hget⟩
      simp [findNodeIdx, hk, hfind]

theorem mapGet_eq_some_elim {c : SieveCache V} {key : String} {n : Node V}
    (h : mapGet c key = some n) :
    n.key = key ∧ ∃ j, findNodeIdx key c.chain = some j ∧ c.chain[j]? = some n :=
  find?_key_eq_some_elim h

theorem modifyFirst_of_none {key : String} {f : Node V → Node V} {chain : List (Node V)}
    (h : findNodeIdx key chain = none) : modifyFirst key f chain = chain := by
  induction chain with
  | nil => rfl
  | cons hd tl ih =>
    by_cases hk : hd.key == key
    · simp [findNodeIdx, hk] at h
    · simp only [findNodeIdx, hk, Bool.false_eq_true, not_false_iff, ite_false,
        Option.map_eq_none'] at h
      simp [modifyFirst, hk, ih h]

theorem modifyFirst_eq_set {key : String} {f : Node V → Node V} {chain : List (Node V)}
    {j : Nat} {n : Node V}
    (hfind : findNodeIdx key chain = some j) (hget : chain[j]? = some n) :
    modifyFirst key f chain = chain.set j (f n) := by
  induction chain generalizing j with
  | nil => simp [findNodeIdx] at hfind
  | cons hd tl ih =>
    by_cases hk : hd.key == key
    · simp [findNodeIdx, hk] at hfind
      subst hfind
      simp at hget
      subst hget
      simp [modifyFirst, hk]
    · simp only [findNodeIdx, hk, Bool.false_eq_true, not_false_iff, ite_false] at hfind
      cases htl : findNodeIdx key tl with
      | none => simp [htl] at hfind
      | some j' =>
        simp [htl] at hfind
        subst hfind
        simp only [List.getElem?_cons_succ] at hget
        simp [modifyFirst, hk, ih htl hget, List.set]

theorem map_eraseIdx {α : Type u} {β : Type v} (f : α → β) (l : List α) (i : Nat) :
    (l.eraseIdx i).map f = (l.map f).eraseIdx i := by
  simp [List.eraseIdx_eq_take_drop_succ, List.map_take, List.map_drop]

theorem nodup_not_mem_eraseIdx {l : List String} (hnd : l.Nodup) {j : Nat} {a : String}
    (hj : l[j]? = some a) : a ∉ l.eraseIdx j := by
  obtain ⟨hlt, hget⟩ := List.getElem?_eq_some_iff.mp hj
  intro hmem
  have hperm := List.erase_getElem (l := l) hlt
  rw [hget] at hperm
  exact hnd.not_mem_erase (hperm.mem_iff.mpr hmem)

/-! ### Helper lemmas about the eviction scan -/

theorem countVisited_le_length (chain : List (Node V)) :
    countVisited chain ≤ chain.length :=
  List.length_filter_le _ _

theorem countVisited_set_false {chain : List (Node V)} {i : Nat} {nd : Node V}
    (hget : chain[i]? = some nd) (hvis : nd.visited = true) :
    countVisited (chain.set i { nd with visited := false }) < countVisited chain := by
  induction chain generalizing i with
  | nil => simp at hget
  | cons hd tl ih =>
    cases i with
    | zero =>
      simp only [List.getElem?_cons_zero, Option.some.injEq] at hget
      subst hget
      simp [countVisited, List.set, List.filter, hvis]
    | succ i =>
      simp only [List.getElem?_cons_succ] at hget
      have hlt := ih hget
      simp only [countVisited, List.set, List.filter] at *
      cases h : hd.visited <;> simp [h] <;> omega

theorem evictScanAux_length (fuel : Nat) :
    ∀ (chain : List (Node V)) (i : Nat),
      ((evictScanAux fuel chain i).1).length = chain.length := by
  induction fuel with
  | zero => intro chain i; rfl
  | succ fuel ih =>
    intro chain i
    simp only [evictScanAux]
    cases hg : chain[i]? with
    | none => rfl
    | some nd =>
      by_cases hv : nd.visited
      · simp only [hv, ite_true]
        rw [ih]
        exact List.length_set ..
      · simp [hv]

theorem evictScanAux_some (fuel : Nat) :
    ∀ (chain : List (Node V)) (i : Nat),
      countVisited chain < fuel → i < chain.length →
      ∃ j nd, (evictScanAux fuel chain i).2 = some j ∧ j < chain.length ∧
        (evictScanAux fuel chain i).1[j]? = some nd ∧ nd.visited = false := by
  induction fuel with
  | zero => intro chain i hfuel _; omega
  | succ fuel ih =>
    intro chain i hfuel hi
    obtain ⟨nd, hg⟩ : ∃ nd, chain[i]? = some nd := by
      cases hg : chain[i]? with
      | none => rw [List.getElem?_eq_none_iff] at hg; omega
      | some nd => exact ⟨nd, rfl⟩
    simp only [evictScanAux, hg]
    by_cases hv : nd.visited
    · simp only [hv, ite_true]
      have hcount := countVisited_set_false hg hv
      have hlen : (chain.set i { nd with visited := false }).length = chain.length :=
        List.length_set ..
      have hi' : (if i = 0 then (chain.set i { nd with visited := false }).length - 1
          else i - 1) < (chain.set i { nd with visited := false }).length := by
        rw [hlen]
        by_cases h0 : i = 0 <;> simp [h0] <;> omega
      obtain ⟨j, nd', h1, h2, h3, h4⟩ :=
        ih (chain.set i { nd with visited := false }) _ (by omega) hi'
      exact ⟨j, nd', h1, by rw [hlen] at h2; exact h2, h3, h4⟩
    · refine ⟨i, nd, by simp [hv], hi, by simpa [hv], by simpa using hv⟩

theorem evictScanStepsAux_le (fuel : Nat) :
    ∀ (chain : List (Node V)) (i : Nat),
      evictScanStepsAux fuel chain i ≤ countVisited chain := by
  induction fuel with
  | zero => intro chain i; exact Nat.zero_le _
  | succ fuel ih =>
    intro chain i
    simp only [evictScanStepsAux]
    cases hg : chain[i]? with
    | none => exact Nat.zero_le _
    | some nd =>
      by_cases hv : nd.visited
      · simp only [hv, ite_true]
        have hcount := countVisited_set_false hg hv
        have := ih (chain.set i { nd with visited := false })
          (if i = 0 then (chain.set i { nd with visited := false }).length - 1 else i - 1)
        omega
      · simp [hv]

theorem forall₂_clearOnly_refl (chain : List (Node V)) :
    List.Forall₂ ClearOnly chain chain :=
  List.forall₂_same.mpr (fun _ _ => ⟨rfl, rfl, fun h => h⟩)

theorem forall₂_clearOnly_trans {l₁ l₂ l₃ : List (Node V)}
    (h₁ : List.Forall₂ ClearOnly l₁ l₂) (h₂ : List.Forall₂ ClearOnly l₂ l₃) :
    List.Forall₂ ClearOnly l₁ l₃ := by
  induction h₁ generalizing l₃ with
  | nil => cases h₂; exact List.Forall₂.nil
  | cons hr _ ih =>
    cases h₂ with
    | cons hr' htl' =>
      exact List.Forall₂.cons
        ⟨hr'.1.trans hr.1, hr'.2.1.trans hr.2.1, fun h => hr.2.2 (hr'.2.2 h)⟩ (ih htl')

theorem forall₂_clearOnly_set {chain : List (Node V)} {i : Nat} {nd : Node V}
    (hget : chain[i]? = some nd) :
    List.Forall₂ ClearOnly chain (chain.set i { nd with visited := false }) := by
  induction chain generalizing i with
  | nil => simp at hget
  | cons hd tl ih =>
    cases i with
    | zero =>
      simp only [List.getElem?_cons_zero, Option.some.injEq] at hget
      subst hget
      exact List.Forall₂.cons ⟨rfl, rfl, by simp⟩ (forall₂_clearOnly_refl tl)
    | succ i =>
      simp only [List.getElem?_cons_succ] at hget
      exact List.Forall₂.cons ⟨rfl, rfl, fun h => h⟩ (ih hget)

theorem evictScanAux_clearOnly (fuel : Nat) :
    ∀ (chain : List (Node V)) (i : Nat),
      List.Forall₂ ClearOnly chain (evictScanAux fuel chain i).1 := by
  induction fuel with
  | zero => intro chain i; exact forall₂_clearOnly_refl chain
  | succ fuel ih =>
    intro chain i
    simp only [evictScanAux]
    cases hg : chain[i]? with
    | none => exact forall₂_clearOnly_refl chain
    | some nd =>
      by_cases hv : nd.visited
      · simp only [hv, ite_true]
        exact forall₂_clearOnly_trans (forall₂_clearOnly_set hg) (ih _ _)
      · simpa [hv] using forall₂_clearOnly_refl chain

theorem forall₂_clearOnly_keys {l l' : List (Node V)}
    (h : List.Forall₂ ClearOnly l l') :
    l'.map (fun n => n.key) = l.map (fun n => n.key) := by
  induction h with
  | nil => rfl
  | cons hr _ ih => simp [ih, hr.1]

theorem forall₂_clearOnly_mem {l l' : List (Node V)} (h : List.Forall₂ ClearOnly l l')
    {a : Node V} (ha : a ∈ l') : ∃ b ∈ l, ClearOnly b a := by
  induction h with
  | nil => cases ha
  | cons hr _ ih =>
    cases ha with
    | head => exact ⟨_, List.mem_cons_self .., hr⟩
    | tail _ hmem =>
      obtain ⟨b, hb, hr'⟩ := ih hmem
      exact ⟨b, List.mem_cons_of_mem _ hb, hr'⟩

/-! ### Helper lemmas about `delete`, `_evict` and `set` -/

theorem findNodeIdx_isSome_of_mem {chain : List (Node V)} {n : Node V} (h : n ∈ chain) :
    ∃ j, findNodeIdx n.key chain = some j := by
  cases hf : findNodeIdx n.key chain with
  | none => exact absurd rfl (findNodeIdx_none_iff.mp hf n h)
  | some j => exact ⟨j, rfl⟩

theorem delete_absent {c : SieveCache V} {key : String}
    (h : findNodeIdx key c.chain = none) : delete c key = (false, c) := by
  simp [delete, h]

theorem delete_present {c : SieveCache V} {key : String} {j : Nat}
    (h : findNodeIdx key c.chain = some j) :
    delete c key = (true,
      { c with
          chain := c.chain.eraseIdx j,
          hand :=
            if c.hand = some key then
              if j = 0 then none else (c.chain[j - 1]?).map (fun n => n.key)
            else c.hand,
          size := c.size - 1 }) := by
  simp [delete, h]

theorem evictStart_lt {c : SieveCache V} (h : c.chain ≠ []) :
    evictStart c < c.chain.length := by
  have hpos : 0 < c.chain.length := List.length_pos.mpr h
  unfold evictStart
  cases c.hand with
  | none => simp only; omega
  | some k =>
    simp only
    cases hf : findNodeIdx k c.chain with
    | none => simp only [hf]; omega
    | some i => simp only [hf]; exact findNodeIdx_lt_length hf

theorem _evict_of_empty {c : SieveCache V} (h : c.chain = []) : _evict c = c := by
  obtain ⟨chain, hand, size, capacity⟩ := c
  simp only at h
  subst h
  cases hand with
  | none => rfl
  | some k => rfl

theorem _evict_remove_one {c : SieveCache V} (hne : c.chain ≠ []) :
    ∃ j, j < c.chain.length ∧
      (_evict c).chain.length = c.chain.length - 1 ∧
      (_evict c).size = c.size - 1 ∧
      keysOf (_evict c) = (keysOf c).eraseIdx j ∧
      (_evict c).capacity = c.capacity := by
  have hstart := evictStart_lt hne
  obtain ⟨v, nd, hv2, hvlt, hv3, _⟩ :=
    evictScanAux_some (countVisited c.chain + 1) c.chain (evictStart c)
      (Nat.lt_succ_self _) hstart
  have hlen : (evictScanAux (countVisited c.chain + 1) c.chain (evictStart c)).1.length
      = c.chain.length := evictScanAux_length ..
  have hkeys : (evictScanAux (countVisited c.chain + 1) c.chain (evictStart c)).1.map
        (fun n => n.key) = c.chain.map (fun n => n.key) :=
    forall₂_clearOnly_keys (evictScanAux_clearOnly ..)
  have hnd_mem : nd ∈ (evictScanAux (countVisited c.chain + 1) c.chain (evictStart c)).1 := by
    obtain ⟨_, hg⟩ := List.getElem?_eq_some_iff.mp hv3
    exact hg ▸ List.getElem_mem _
  obtain ⟨j, hfind⟩ := findNodeIdx_isSome_of_mem hnd_mem
  have hjlt := findNodeIdx_lt_length hfind
  refine ⟨j, by omega, ?_⟩
  simp only [_evict, evictScan, hv2, hv3]
  rw [delete_present hfind]
  simp only [keysOf]
  rw [map_eraseIdx, hkeys]
  refine ⟨?_, trivial, rfl, trivial⟩
  rw [List.length_eraseIdx_of_lt hjlt, hlen]

theorem set_present_eq {c : SieveCache V} {key : String} {v : V} {n : Node V}
    (h : mapGet c key = some n) :
    set c key v = ({ n with value := v, visited := true },
      { c with
          chain := modifyFirst key (fun m => { m with value := v, visited := true }) c.chain }) := by
  simp [set, h]

theorem set_absent_eq {c : SieveCache V} {key : String} {v : V}
    (h : mapGet c key = none) :
    set c key v = ({ key := key, value := v, visited := false },
      { (if (c.size : Int) = c.capacity then _evict c else c) with
          chain := { key := key, value := v, visited := false } ::
            (if (c.size : Int) = c.capacity then _evict c else c).chain,
          size := (if (c.size : Int) = c.capacity then _evict c else c).size + 1 }) := by
  simp [set, h]

theorem modifyFirst_length {key : String} {f : Node V → Node V} (chain : List (Node V)) :
    (modifyFirst key f chain).length = chain.length := by
  induction chain with
  | nil => rfl
  | cons hd tl ih =>
    by_cases hk : hd.key == key <;> simp [modifyFirst, hk, ih]

theorem set_self {α : Type u} {l : List α} {j : Nat} {a : α} (h : l[j]? = some a) :
    l.set j a = l := by
  induction l generalizing j with
  | nil => rfl
  | cons hd tl ih =>
    cases j with
    | zero => simp at h; simp [h]
    | succ j => simp at h; simp [List.set, ih h]

/-! ### Invariant preservation for sequences of `set` calls -/

theorem chain_ne_nil_of_full {c : SieveCache V} (hInv : SizeInv c) (h1 : 1 ≤ c.capacity)
    (hfull : (c.size : Int) = c.capacity) : c.chain ≠ [] := by
  have : 1 ≤ c.size := by exact_mod_cast h1.trans_eq hfull.symm
  intro hnil
  rw [hInv, hnil] at this
  simp at this

theorem set_preserves {cap : Int} {c : SieveCache V} (k : String) (v : V)
    (hInv : SizeInv c) (hle : (c.size : Int) ≤ cap) (hcap : c.capacity = cap)
    (h1 : 1 ≤ cap) :
    SizeInv (set c k v).2 ∧ ((set c k v).2.size : Int) ≤ cap ∧
      (set c k v).2.capacity = cap := by
  cases hm : mapGet c k with
  | some n =>
    rw [set_present_eq hm]
    exact ⟨by simpa [SizeInv, modifyFirst_length] using hInv, hle, hcap⟩
  | none =>
    rw [set_absent_eq hm]
    by_cases hfull : (c.size : Int) = c.capacity
    · rw [if_pos hfull]
      have hne : c.chain ≠ [] := chain_ne_nil_of_full hInv (hcap ▸ h1) hfull
      obtain ⟨j, hj, hlen', hsize', _, hcap'⟩ := _evict_remove_one hne
      have hs1 : 1 ≤ c.size := by
        have := h1.trans_eq (hcap ▸ hfull).symm
        exact_mod_cast this
      refine ⟨?_, ?_, hcap' ▸ hcap⟩
      · show (_evict c).size + 1 = (_evict c).chain.length + 1
        rw [hsize', hlen', hInv]
      · show (((_evict c).size + 1 : Nat) : Int) ≤ cap
        rw [hsize']
        have : ((c.size - 1 + 1 : Nat) : Int) = (c.size : Int) := by
          omega
        rw [this, hfull, hcap]
    · rw [if_neg hfull]
      refine ⟨by simpa [SizeInv] using hInv, ?_, hcap⟩
      show (((c.size + 1 : Nat) : Int)) ≤ cap
      rw [hcap] at hfull
      push_cast
      omega

theorem applySets_preserves {cap : Int} (ops : List (String × V)) :
    ∀ c : SieveCache V, SizeInv c → (c.size : Int) ≤ cap → c.capacity = cap →
      1 ≤ cap →
      SizeInv (applySets c ops) ∧ ((applySets c ops).size : Int) ≤ cap ∧
        (applySets c ops).capacity = cap := by
  induction ops with
  | nil => intro c h1 h2 h3 _; exact ⟨h1, h2, h3⟩
  | cons op ops ih =>
    intro c h1 h2 h3 h4
    obtain ⟨g1, g2, g3⟩ := set_preserves op.1 op.2 h1 h2 h3 h4
    exact ih (set c op.1 op.2).2 g1 g2 g3 h4

theorem set_full_evicts_exactly_one {c : SieveCache V} {key : String} (v : V)
    (hInv : SizeInv c) (h1 : 1 ≤ c.capacity) (hfull : (c.size : Int) = c.capacity)
    (hm : mapGet c key = none) : EvictsExactlyOne c key v := by
  have hne : c.chain ≠ [] := chain_ne_nil_of_full hInv h1 hfull
  obtain ⟨j, hj, hlen', hsize', hkeys', _⟩ := _evict_remove_one hne
  have hs1 : 1 ≤ c.size := by
    have := h1.trans_eq hfull.symm
    exact_mod_cast this
  refine ⟨j, hj, ?_, ?_⟩
  · rw [set_absent_eq hm, if_pos hfull]
    show (⟨key, v, false⟩ : Node V).key :: keysOf (_evict c) = _
    rw [hkeys']
  · rw [set_absent_eq hm, if_pos hfull]
    show (_evict c).size + 1 = c.size
    rw [hsize']
    omega

/-! ### The eviction scan of the source agrees with the spec's description -/

theorem specScanLoop_none (fuel : Nat) (chain : List (Node V)) :
    specScanLoop fuel chain none = (chain, none) := by
  cases fuel <;> rfl

theorem specScanLoop_eq_aux (fuel : Nat) :
    ∀ (chain : List (Node V)) (i : Nat),
      specScanLoop fuel chain (some i) = evictScanAux fuel chain i := by
  induction fuel with
  | zero => intro chain i; rfl
  | succ fuel ih =>
    intro chain i
    simp only [specScanLoop, evictScanAux]
    cases hg : chain[i]? with
    | none => rfl
    | some nd =>
      by_cases hv : nd.visited
      · simp only [hv, ite_true]
        have hi : i < chain.length := by
          have := List.getElem?_eq_some_iff.mp hg
          exact this.1
        by_cases h0 : i = 0
        · subst h0
          have hlen : (chain.set 0 { nd with visited := false }).length ≠ 0 := by
            rw [List.length_set]; omega
          simp only [specPrev, ite_true, specTail, hlen, if_neg hlen, if_pos rfl]
          exact ih ..
        · simp only [specPrev, if_neg h0]
          exact ih ..
      · simp [hv]

theorem specStart_eq {c : SieveCache V} :
    specStart c = if c.chain.length = 0 then none else some (evictStart c) := by
  unfold specStart evictStart specTail
  cases c.hand with
  | none => simp only
  | some k =>
    simp only
    cases hf : findNodeIdx k c.chain with
    | none => simp only [hf]
    | some j =>
      simp only [hf]
      have := findNodeIdx_lt_length hf
      rw [if_neg (by omega)]

/-! ### Remaining helper lemmas -/

theorem findNodeIdx_getElem {key : String} {chain : List (Node V)} {j : Nat}
    (h : findNodeIdx key chain = some j) :
    ∃ n, chain[j]? = some n ∧ n.key = key := by
  induction chain generalizing j with
  | nil => simp [findNodeIdx] at h
  | cons hd tl ih =>
    by_cases hk : hd.key == key
    · simp only [findNodeIdx, hk, ite_true, Option.some.injEq] at h
      subst h
      exact ⟨hd, by simp, eq_of_beq hk⟩
    · simp only [findNodeIdx, hk, Bool.false_eq_true, not_false_iff, ite_false] at h
      cases htl : findNodeIdx key tl with
      | none => simp [htl] at h
      | some j' =>
        simp only [htl, Option.map_some', Option.some.injEq] at h
        subst h
        obtain ⟨n, hget, hkey⟩ := ih htl
        exact ⟨n, by simpa using hget, hkey⟩

theorem set_absent_insert {c : SieveCache V} {k : String} {v : V}
    (hInv : SizeInv c) (hcap : c.capacity = 0) (hm : mapGet c k = none) :
    (set c k v).2.chain = { key := k, value := v, visited := false } :: c.chain ∧
      (set c k v).2.size = c.size + 1 ∧
      (set c k v).2.capacity = c.capacity ∧
      (set c k v).2.hand = c.hand := by
  rw [set_absent_eq hm]
  by_cases hfull : (c.size : Int) = c.capacity
  · have hsize : c.size = 0 := by
      rw [hcap] at hfull
      exact_mod_cast hfull
    have hnil : c.chain = [] := by
      rw [hInv] at hsize
      exact List.length_eq_zero.mp hsize
    rw [if_pos hfull, _evict_of_empty hnil]
    exact ⟨rfl, rfl, rfl, rfl⟩
  · rw [if_neg hfull]
    exact ⟨rfl, rfl, rfl, rfl⟩

theorem applySets_distinct_growth (l : List String) :
    ∀ c : SieveCache Nat, SizeInv c → c.capacity = 0 →
      (∀ k ∈ l, k ∉ keysOf c) → l.Nodup →
      (applySets c (l.map (fun k => (k, 0)))).size = c.size + l.length := by
  induction l with
  | nil => intro c _ _ _ _; rfl
  | cons k l ih =>
    intro c hInv hcap habs hnd
    have hm : mapGet c k = none :=
      mapGet_none_iff.mpr (habs k (List.mem_cons_self ..))
    obtain ⟨hchain, hsize, hcap', hhand⟩ := set_absent_insert hInv hcap hm
    have hInv' : SizeInv (set c k 0).2 := by
      show (set c k 0).2.size = (set c k 0).2.chain.length
      rw [hchain, hsize, List.length_cons, hInv]
    have hkeys' : keysOf (set c k 0).2 = k :: keysOf c := by
      unfold keysOf
      rw [hchain]
      rfl
    have habs' : ∀ k' ∈ l, k' ∉ keysOf (set c k 0).2 := by
      intro k' hk'
      rw [hkeys']
      intro hmem
      cases List.mem_cons.mp hmem with
      | inl he => exact (List.nodup_cons.mp hnd).1 (he ▸ hk')
      | inr ht => exact habs k' (List.mem_cons_of_mem _ hk') ht
    have := ih (set c k 0).2 hInv' (hcap' ▸ hcap) habs' (List.nodup_cons.mp hnd).2
    show (applySets (set c k 0).2 (l.map (fun k => (k, 0)))).size = c.size + (l.length + 1)
    rw [this, hsize]
    omega

theorem iterFrom_eq_map (chain : List (Node V)) :
    iterFrom chain = chain.map (fun n => (n.key, n.value)) := by
  induction chain with
  | nil => rfl
  | cons hd tl ih => simp [iterFrom, ih]

theorem delete_capacity (c : SieveCache V) (key : String) :
    (delete c key).2.capacity = c.capacity := by
  cases hf : findNodeIdx key c.chain with
  | none => rw [delete_absent hf]
  | some j => rw [delete_present hf]

theorem _evict_capacity (c : SieveCache V) : (_evict c).capacity = c.capacity := by
  by_cases hnil : c.chain = []
  · rw [_evict_of_empty hnil]
  · obtain ⟨v', nd, hv2, _, hv3, _⟩ :=
      evictScanAux_some (countVisited c.chain + 1) c.chain (evictStart c)
        (Nat.lt_succ_self _) (evictStart_lt hnil)
    simp only [_evict, evictScan, hv2, hv3]
    rw [delete_capacity]

theorem set_capacity (c : SieveCache V) (k : String) (v : V) :
    (set c k v).2.capacity = c.capacity := by
  cases hm : mapGet c k with
  | some n => rw [set_present_eq hm]
  | none =>
    rw [set_absent_eq hm]
    by_cases hfull : (c.size : Int) = c.capacity
    · rw [if_pos hfull]
      exact _evict_capacity c
    · rw [if_neg hfull]

theorem applySets_capacity (ops : List (String × V)) :
    ∀ c : SieveCache V, (applySets c ops).capacity = c.capacity := by
  induction ops with
  | nil => intro c; rfl
  | cons op ops ih =>
    intro c
    show (applySets (set c op.1 op.2).2 ops).capacity = c.capacity
    rw [ih, set_capacity]

/-! ### The claims -/

/-- Claim C1: the eviction scan, invoked only from `set` when `size` equals
`capacity`, follows exactly the spec's steps: the `_evict` transcribed from
the source coincides (on every cache state) with `evictSpec`, the function
transcribed from the spec's step-by-step description — start at `hand` if
non-null else `tail`; clear `visited` flags moving to predecessors, wrapping
to the tail past the head; stop at the first unvisited node; set `hand` to the
victim's predecessor; remove the victim through `delete`.  The second and
third conjuncts show `set` on an absent key runs the eviction exactly when
`size = capacity` and otherwise inserts without evicting. -/
theorem evict_follows_spec_steps :
    (∀ c : SieveCache V, _evict c = evictSpec c) ∧
    (∀ (c : SieveCache V) (k : String) (v : V),
      mapGet c k = none → (c.size : Int) ≠ c.capacity →
        (set c k v).2.chain = { key := k, value := v, visited := false } :: c.chain ∧
        (set c k v).2.size = c.size + 1) ∧
    (∀ (c : SieveCache V) (k : String) (v : V),
      mapGet c k = none → (c.size : Int) = c.capacity →
        (set c k v).2.chain = { key := k, value := v, visited := false } :: (_evict c).chain ∧
        (set c k v).2.size = (_evict c).size + 1) := by
  refine ⟨?_, ?_, ?_⟩
  · intro c
    by_cases hnil : c.chain = []
    · have h0 : c.chain.length = 0 := by rw [hnil]; rfl
      rw [_evict_of_empty hnil]
      unfold evictSpec
      rw [specStart_eq, if_pos h0, specScanLoop_none]
    · have hlen0 : c.chain.length ≠ 0 := fun h => hnil (List.length_eq_zero.mp h)
      obtain ⟨v', nd, hv2, _, hv3, _⟩ :=
        evictScanAux_some (countVisited c.chain + 1) c.chain (evictStart c)
          (Nat.lt_succ_self _) (evictStart_lt hnil)
      unfold evictSpec
      rw [specStart_eq, if_neg hlen0, specScanLoop_eq_aux]
      simp only [_evict, evictScan, hv2, hv3]
  · intro c k v hm hfull
    rw [set_absent_eq hm, if_neg hfull]
    exact ⟨rfl, rfl⟩
  · intro c k v hm hfull
    rw [set_absent_eq hm, if_pos hfull]
    exact ⟨rfl, rfl⟩

/-- Claim C3: on a cache of capacity 3, after `set a`, `set b`, `set c`,
`get a`, `set d`, the key `b` has been evicted and the chain holds exactly
`d, c, a` (head to tail). -/
theorem eviction_scenario_abcd :
    keysOf (set (get (applySets (mkCache (V := Nat) 3)
        [("a", 1), ("b", 2), ("c", 3)]) "a").2 "d" 4).2 = ["d", "c", "a"] ∧
    mapGet (set (get (applySets (mkCache (V := Nat) 3)
        [("a", 1), ("b", 2), ("c", 3)]) "a").2 "d" 4).2 "b" = none := by
  decide

/-- Claim C4, counterexample: constructing a cache with capacity 0 does not
fail — it yields an ordinary empty cache on which `set` proceeds normally, so
non-positive capacities are not rejected at construction time. -/
theorem constructor_accepts_nonpositive_capacity :
    mkCache (V := Nat) 0 = { chain := [], hand := none, size := 0, capacity := 0 } ∧
    (set (mkCache (V := Nat) 0) "a" 1).2.size = 1 ∧
    keysOf (set (mkCache (V := Nat) 0) "a" 1).2 = ["a"] := by
  refine ⟨rfl, by decide, by decide⟩

/-- Claim C4, amended: the constructor performs no validation at all — any
capacity, including 0 and negative values, is stored as-is and the cache
starts empty and operational, deferring the consequences to later `set`
calls. -/
theorem constructor_defers_validation (cap : Int) (_hcap : cap ≤ 0) :
    (mkCache (V := Nat) cap).capacity = cap ∧
    (mkCache (V := Nat) cap).size = 0 ∧
    (mkCache (V := Nat) cap).chain = [] ∧
    ∀ (k : String) (v : Nat),
      (set (mkCache (V := Nat) cap) k v).2.size = 1 ∧
      keysOf (set (mkCache (V := Nat) cap) k v).2 = [k] := by
  refine ⟨rfl, rfl, rfl, ?_⟩
  intro k v
  have hm : mapGet (mkCache (V := Nat) cap) k = none := rfl
  rw [set_absent_eq hm]
  by_cases hfull : (((mkCache (V := Nat) cap).size : Int)) = (mkCache (V := Nat) cap).capacity
  · rw [if_pos hfull, _evict_of_empty rfl]
    exact ⟨rfl, rfl⟩
  · rw [if_neg hfull]
    exact ⟨rfl, rfl⟩

/-- Witness for C4's amended claim at the concrete capacity `-5`. -/
theorem constructor_defers_validation_witness :
    (mkCache (V := Nat) (-5)).capacity = -5 ∧
    (mkCache (V := Nat) (-5)).size = 0 ∧
    (mkCache (V := Nat) (-5)).chain = [] ∧
    (set (mkCache (V := Nat) (-5)) "a" 1).2.size = 1 ∧
    keysOf (set (mkCache (V := Nat) (-5)) "a" 1).2 = ["a"] := by
  have t := constructor_defers_validation (-5) (by decide)
  exact ⟨t.1, t.2.1, t.2.2.1, (t.2.2.2 "a" 1).1, (t.2.2.2 "a" 1).2⟩

/-- Claim C6: `delete` on an absent key returns false and changes nothing; on
a present key it moves the hand off the node if needed, removes the node from
chain and index, decrements `size`, and returns true. -/
theorem delete_spec_holds (c : SieveCache V) (key : String) : DeleteSpec c key := by
  refine ⟨?_, ?_⟩
  · intro hm
    exact delete_absent (mapGet_none_iff_findNodeIdx.mp hm)
  · intro j hj
    rw [delete_present hj]
    refine ⟨rfl, rfl, rfl, rfl, rfl, ?_⟩
    intro hnd
    obtain ⟨n, hget, hkey⟩ := findNodeIdx_getElem hj
    apply mapGet_none_iff.mpr
    show key ∉ (c.chain.eraseIdx j).map (fun n => n.key)
    rw [map_eraseIdx]
    have hkj : (c.chain.map (fun n => n.key))[j]? = some key := by
      rw [List.getElem?_map, hget]
      simp [hkey]
    exact nodup_not_mem_eraseIdx hnd hkj

/-- Witness for C6 at a concrete two-entry cache and present key. -/
theorem delete_spec_holds_witness :
    DeleteSpec (applySets (mkCache (V := Nat) 3) [("a", 1), ("b", 2)]) "a" :=
  delete_spec_holds _ "a"

/-- Claim C7: `set` on an already-present key updates the node in place —
new value, visited flag raised, same chain slot, everything else (order,
size, hand, capacity, all other entries) untouched, and no eviction even on a
full cache. -/
theorem set_update_in_place {c : SieveCache V} {key : String} {v : V} {n : Node V}
    (h : mapGet c key = some n) : SetUpdateSpec c key v n := by
  obtain ⟨hkey, j, hfind, hget⟩ := mapGet_eq_some_elim h
  have hmod :=
    modifyFirst_eq_set (f := fun m => { m with value := v, visited := true }) hfind hget
  refine ⟨j, hfind, hget, hkey, ?_, ?_, ?_, ?_, ?_, ?_, ?_⟩
  · rw [set_present_eq h]
  · rw [set_present_eq h]
    exact hmod
  · rw [set_present_eq h]
    show (modifyFirst key _ c.chain).length = _
    rw [modifyFirst_length]
  · rw [set_present_eq h]
    show (modifyFirst key _ c.chain).map (fun n => n.key) = c.chain.map (fun n => n.key)
    rw [hmod, List.map_set]
    apply set_self
    rw [List.getElem?_map, hget]
    rfl
  · rw [set_present_eq h]
  · rw [set_present_eq h]
  · rw [set_present_eq h]

/-- Witness for C7 on a concrete cache holding key `a`. -/
theorem set_update_in_place_witness :
    SetUpdateSpec (set (mkCache (V := Nat) 3) "a" 1).2 "a" 2
      { key := "a", value := 1, visited := false } :=
  set_update_in_place (by decide)

/-- Claim C8: iteration walks the chain from head to tail — newest insertion
first — and `toArray` materializes exactly that sequence; inserting `a, b, c`
yields iteration order `c, b, a`.  Both operations are pure functions of the
state: they mutate nothing. -/
theorem iteration_newest_first :
    (∀ c : SieveCache V, toArray c = iterFrom c.chain ∧
        iterFrom c.chain = c.chain.map (fun n => (n.key, n.value))) ∧
    toArray (applySets (mkCache (V := Nat) 3) [("a", 1), ("b", 2), ("c", 3)]) =
      [("c", 3), ("b", 2), ("a", 1)] := by
  refine ⟨fun c => ⟨?_, iterFrom_eq_map _⟩, by decide⟩
  unfold toArray
  simp

/-- Claim C2: on a cache built with capacity at least 1, no sequence of `set`
calls ever pushes `size` beyond `capacity`; and at capacity, a `set` on an
absent key removes exactly one existing entry before inserting the new one. -/
theorem capacity_invariant {W : Type u} (cap : Int) (hcap : 1 ≤ cap)
    (ops : List (String × W)) :
    ((applySets (mkCache cap) ops).size : Int) ≤ cap ∧
    ∀ (key : String) (v : W),
      ((applySets (mkCache cap) ops).size : Int) = cap →
      mapGet (applySets (mkCache cap) ops) key = none →
      EvictsExactlyOne (applySets (mkCache cap) ops) key v := by
  have h := @applySets_preserves W cap ops (mkCache cap) rfl
    (by show ((0 : Nat) : Int) ≤ cap; omega) rfl hcap
  refine ⟨h.2.1, fun key v hfull hm => ?_⟩
  have h1 : 1 ≤ (applySets (mkCache (V := W) cap) ops).capacity := by
    rw [h.2.2]; exact hcap
  have hfull' : (((applySets (mkCache (V := W) cap) ops).size : Int)) =
      (applySets (mkCache (V := W) cap) ops).capacity := by
    rw [h.2.2]; exact hfull
  exact set_full_evicts_exactly_one v h.1 h1 hfull' hm

/-- Witness for C2: capacity 3, inserting `a, b, c` and then a fresh key. -/
theorem capacity_invariant_witness :
    ((applySets (mkCache (V := Nat) 3) [("a", 1), ("b", 2), ("c", 3)]).size : Int) ≤ 3 ∧
    EvictsExactlyOne (applySets (mkCache (V := Nat) 3) [("a", 1), ("b", 2), ("c", 3)])
      "d" 4 := by
  have t := capacity_invariant 3 (by decide) [("a", 1), ("b", 2), ("c", 3)]
  exact ⟨t.1, t.2 "d" 4 (by decide) (by decide)⟩

/-- Claim C5: the visited-flag state machine — unvisited on creation, raised
only by a `get` hit or an update `set`, cleared only by an eviction sweep
passing over a surviving node, and untouched by everything else. -/
theorem visited_flag_state_machine (c : SieveCache V) (key : String) (v : V) :
    VisitedFlagSpec c key v := by
  refine ⟨?_, ?_, ?_, ?_, ?_⟩
  · intro hm
    rw [set_absent_eq hm]
    exact ⟨rfl, by simp⟩
  · intro n hm
    obtain ⟨hkey, j, hfind, hget⟩ := mapGet_eq_some_elim hm
    refine ⟨j, hfind, hget, ?_, ?_⟩
    · have hg : (get c key).2 =
          { c with chain := modifyFirst key (fun m => { m with visited := true }) c.chain } := by
        unfold get
        rw [hm]
      rw [hg]
      exact modifyFirst_eq_set hfind hget
    · rw [set_present_eq hm]
      exact modifyFirst_eq_set hfind hget
  · intro hm
    unfold get
    rw [hm]
  · intro n hn
    cases hf : findNodeIdx key c.chain with
    | none => rw [delete_absent hf] at hn; exact hn
    | some j =>
      rw [delete_present hf] at hn
      exact List.eraseIdx_subset _ _ hn
  · intro n hn
    by_cases hnil : c.chain = []
    · rw [_evict_of_empty hnil] at hn
      exact ⟨n, hn, rfl, rfl, fun h => h⟩
    · obtain ⟨v', nd, hv2, _, hv3, _⟩ :=
        evictScanAux_some (countVisited c.chain + 1) c.chain (evictStart c)
          (Nat.lt_succ_self _) (evictStart_lt hnil)
      have hnd_mem : nd ∈ (evictScanAux (countVisited c.chain + 1) c.chain (evictStart c)).1 := by
        obtain ⟨_, hg⟩ := List.getElem?_eq_some_iff.mp hv3
        exact hg ▸ List.getElem_mem _
      obtain ⟨j, hfind⟩ := findNodeIdx_isSome_of_mem hnd_mem
      simp only [_evict, evictScan, hv2, hv3] at hn
      rw [delete_present hfind] at hn
      have hn' : n ∈ (evictScanAux (countVisited c.chain + 1) c.chain (evictStart c)).1 :=
        List.eraseIdx_subset _ _ hn
      obtain ⟨m, hm, hrel⟩ := forall₂_clearOnly_mem (evictScanAux_clearOnly ..) hn'
      exact ⟨m, hm, hrel.1, hrel.2.1, hrel.2.2⟩

/-- Claim C9: the eviction scan on a non-empty cache always stops and selects
a victim inside the chain, after at most `size + 1` loop iterations — the
cursor never runs forever and never exhausts the chain. -/
theorem eviction_scan_terminates {c : SieveCache V} (hne : c.chain ≠ [])
    (hInv : SizeInv c) :
    ∃ j, (evictScan c.chain (evictStart c)).2 = some j ∧ j < c.chain.length ∧
      evictScanSteps c.chain (evictStart c) ≤ c.size + 1 := by
  obtain ⟨j, nd, h1, h2, _, _⟩ :=
    evictScanAux_some (countVisited c.chain + 1) c.chain (evictStart c)
      (Nat.lt_succ_self _) (evictStart_lt hne)
  refine ⟨j, h1, h2, ?_⟩
  have hsteps := evictScanStepsAux_le (countVisited c.chain + 1) c.chain (evictStart c)
  have hcount := countVisited_le_length c.chain
  show evictScanStepsAux (countVisited c.chain + 1) c.chain (evictStart c) ≤ c.size + 1
  rw [hInv]
  omega

/-- Witness for C9 on a concrete one-entry cache. -/
theorem eviction_scan_terminates_witness :
    ∃ j, (evictScan (set (mkCache (V := Nat) 1) "a" 1).2.chain
        (evictStart (set (mkCache (V := Nat) 1) "a" 1).2)).2 = some j ∧
      j < (set (mkCache (V := Nat) 1) "a" 1).2.chain.length ∧
      evictScanSteps (set (mkCache (V := Nat) 1) "a" 1).2.chain
        (evictStart (set (mkCache (V := Nat) 1) "a" 1).2) ≤
        (set (mkCache (V := Nat) 1) "a" 1).2.size + 1 :=
  eviction_scan_terminates (by decide) (by decide)

/-- Claim C10: the constructor accepts capacity 0 without error; on such a
cache every `set` on a fresh key inserts without evicting anything (the scan
on the empty chain is a no-op on the first `set`, and afterwards `size` never
equals `capacity` again), so `size` grows beyond `capacity` without bound. -/
theorem zero_capacity_unbounded_growth (l : List String) (hl : l.Nodup) :
    mkCache (V := Nat) 0 = { chain := [], hand := none, size := 0, capacity := 0 } ∧
    (∀ (c : SieveCache Nat) (k : String) (v : Nat),
      c.capacity = 0 → SizeInv c → mapGet c k = none →
        (set c k v).2.chain = { key := k, value := v, visited := false } :: c.chain ∧
        (set c k v).2.size = c.size + 1) ∧
    (applySets (mkCache (V := Nat) 0) (l.map (fun k => (k, 0)))).size = l.length ∧
    (applySets (mkCache (V := Nat) 0) (l.map (fun k => (k, 0)))).capacity = 0 := by
  refine ⟨rfl, ?_, ?_, applySets_capacity ..⟩
  · intro c k v hcap hInv hm
    obtain ⟨h1, h2, _, _⟩ := set_absent_insert hInv hcap hm
    exact ⟨h1, h2⟩
  · have h := applySets_distinct_growth l (mkCache 0) rfl rfl
      (by intro k _ hk; simp [keysOf, mkCache] at hk) hl
    simpa [mkCache] using h

/-- Witness for C10 with the two distinct keys `a`, `b`: size reaches 2 on a
capacity-0 cache. -/
theorem zero_capacity_unbounded_growth_witness :
    (applySets (mkCache (V := Nat) 0) (["a", "b"].map (fun k => (k, 0)))).size = 2 ∧
    (applySets (mkCache (V := Nat) 0) (["a", "b"].map (fun k => (k, 0)))).capacity = 0 := by
  have t := zero_capacity_unbounded_growth ["a", "b"] (by decide)
  exact ⟨t.2.2.1, t.2.2.2⟩

end Sieve
